import Mathlib

/-!
Verification development for `verify_attention_only.py`, a tool that scans
an `.et` trace file, heuristically extracts operator names with three
regular-expression passes over a lossy UTF-8 decoding, counts and groups
them, and prints a report.

The source is embedded shallowly: text is `List Char`, byte content is
`List Nat`, the filesystem and `sys.argv` are explicit parameters, and
each of the three regexes (whose quantifiers all range over single
character classes) is embedded as a deterministic scanner that follows
Python's leftmost / first-alternative / greedy-with-backtracking match
semantics for that particular pattern.  `re.findall` is embedded as a
fuel-indexed scan (`scanAux`) that advances by one character on failure
and past the whole match on success; since every match of each pattern
consumes at least one character, fuel `s.length` is exact.
-/

/-- Python `\s` on `str`: the characters CPython's regex engine treats
as whitespace (`Py_UNICODE_ISSPACE`) — tab through carriage return
(U+0009..U+000D), the separators U+001C..U+001F, space, U+0085, and the
Unicode space separators U+00A0, U+1680, U+2000..U+200A,
U+2028..U+2029, U+202F, U+205F, U+3000. -/
def isWs (c : Char) : Bool :=
  let n := c.toNat
  (9 ≤ n && n ≤ 13) || (28 ≤ n && n ≤ 32) || n = 133 || n = 160 ||
  n = 5760 || (8192 ≤ n && n ≤ 8202) || n = 8232 || n = 8233 ||
  n = 8239 || n = 8287 || n = 12288

/-- The single-quote character `'` (written via its code point 39). -/
def squote : Char := Char.ofNat 39

/-- The regex class `["\']`: a double or single quote. -/
def isQuote (c : Char) : Bool := c = '"' || c = squote

/-- The regex class `[:=]` of pattern 1. -/
def isDelim (c : Char) : Bool := c = ':' || c = '='

/-- The regex class `[a-zA-Z]`: an ASCII letter. -/
def isAsciiAlpha (c : Char) : Bool :=
  ('a' ≤ c && c ≤ 'z') || ('A' ≤ c && c ≤ 'Z')

/-- The regex class `[a-zA-Z_]`: start of an identifier. -/
def isIdentStart (c : Char) : Bool := isAsciiAlpha c || c = '_'

/-- The regex class `[a-zA-Z0-9_]`: an identifier character. -/
def isIdentChar (c : Char) : Bool := isAsciiAlpha c || ('0' ≤ c && c ≤ '9') || c = '_'

/-- The regex class `[a-zA-Z0-9_.]`: an identifier character or a dot. -/
def isWChar (c : Char) : Bool := isIdentChar c || c = '.'

/-- ASCII-range lowercasing, embedding how Python `re.IGNORECASE`
compares the ASCII letters of the patterns at hand. -/
def lowerChar (c : Char) : Char := c.toLower

/-- Case-insensitive equality of two characters (ASCII case folding). -/
def eqCI (a b : Char) : Bool := lowerChar a = lowerChar b

/-- Lexicographic (code-point) order on strings, embedding Python's
`<=` on `str`, which compares code points left to right. -/
def lexLe : List Char → List Char → Bool
  | [], _ => true
  | _ :: _, [] => false
  | a :: as, b :: bs =>
    if a.toNat = b.toNat then lexLe as bs else decide (a.toNat < b.toNat)

/-- `lexLe` as a relation, for use with `List.insertionSort`. -/
def lexR (a b : List Char) : Prop := lexLe a b = true

instance : DecidableRel lexR := fun a b => by
  unfold lexR; infer_instance

/-- Strip a literal (the pattern characters) from the front of the text,
case-insensitively; embeds matching a literal regex atom under
`re.IGNORECASE`.  Returns the rest of the text after the literal. -/
def stripCI : List Char → List Char → Option (List Char)
  | [], s => some s
  | _ :: _, [] => none
  | p :: ps, c :: cs => if eqCI p c then stripCI ps cs else none

/-- Greedy `["\']?`: consume one quote if present.  Returns the number
of characters consumed (0 or 1) and the rest.  For this regex the
optional quote is followed by `\s*[:=]` or by `[^"\']+`, neither of
which can start with a quote, so Python's try-with-then-without
backtracking is equivalent to consume-if-present. -/
def optQuote : List Char → Nat × List Char
  | [] => (0, [])
  | c :: cs => if isQuote c then (1, cs) else (0, c :: cs)

/-- One attempted match of pattern 1,
`name["\']?\s*[:=]\s*["\']?([^"\']+)["\']?` (IGNORECASE), at the head of
the text.  Returns the captured group and the total number of characters
of the whole match.  The first `\s*` and the first `["\']?` never
backtrack usefully (`[:=]` matches neither whitespace nor a quote), but
the second `\s*` does: when the greedily-consumed whitespace is
followed by nothing, or only by a quote whose own remainder starts with
a quote or the end, the `[^"\']+` group is empty and Python gives one
whitespace character back to the group — the capture is then exactly
that last whitespace character (whitespace is itself in `[^"\']`, and
backtracking stops at the first success).  With no whitespace to give
back, the match fails. -/
def tryP1 (s : List Char) : Option (List Char × Nat) :=
  match stripCI ("name".toList) s with
  | none => none
  | some r1 =>
    let q1 := (optQuote r1).1
    let r2 := (optQuote r1).2
    let w1 := r2.takeWhile isWs
    match r2.dropWhile isWs with
    | [] => none
    | d :: r4 =>
      if isDelim d then
        let w2 := r4.takeWhile isWs
        let rest := r4.dropWhile isWs
        let q2 := (optQuote rest).1
        let r6 := (optQuote rest).2
        let tok := r6.takeWhile (fun c => !(isQuote c))
        if tok.isEmpty then
          match w2.getLast? with
          | some wc =>
            some ([wc], 4 + q1 + w1.length + 1 + (w2.length - 1) + 1 +
              (if rest.isEmpty then 0 else 1))
          | none => none
        else
          let q3 : Nat := match r6.dropWhile (fun c => !(isQuote c)) with
            | c :: _ => if isQuote c then 1 else 0
            | [] => 0
          some (tok, 4 + q1 + w1.length + 1 + w2.length + q2 + tok.length + q3)
      else none

/-- Whether a run has a `.` at an index `k` with `1 ≤ k ≤ length - 2`,
i.e. a dot that is preceded by the mandatory first character and
followed by at least one more run character — exactly when
`[a-zA-Z_][a-zA-Z0-9_.]*\.[a-zA-Z0-9_.]+` can match the run. -/
def hasInnerDot (l : List Char) : Bool := ((l.drop 1).dropLast).contains '.'

/-- One attempted match of pattern 2,
`[a-zA-Z_][a-zA-Z0-9_.]*\.[a-zA-Z0-9_.]+`, at the head of the text.
The greedy quantifiers make every successful match extend to the end of
the maximal `[a-zA-Z0-9_.]` run starting at the head, and a match exists
iff that run has an inner dot. -/
def tryP2 : List Char → Option (List Char × Nat)
  | [] => none
  | c :: cs =>
    if isIdentStart c then
      let run := c :: cs.takeWhile isWChar
      if hasInnerDot run then some (run, run.length) else none
    else none

/-- Index of the last `'_'` in a list, if any. -/
def lastUnderscore : List Char → Option Nat
  | [] => none
  | c :: cs =>
    match lastUnderscore cs with
    | some p => some (p + 1)
    | none => if c = '_' then some 0 else none

/-- The maximal `[a-zA-Z0-9_.]*` run at the head of the text. -/
def identTail (l : List Char) : List Char := l.takeWhile isWChar

/-- The part of pattern 3 after a matched marker:
`[^a-zA-Z]*([a-zA-Z_][a-zA-Z0-9_.]*)`.  The greedy `[^a-zA-Z]*` run
stops at the first ASCII letter, where the group then starts; if the run
instead reaches the end of the text, Python backtracks the star one
character at a time, and the group can then only start at an `'_'` (the
sole non-letter in `[a-zA-Z_]`), so the first success is at the last
underscore of the run.  Returns the captured group and the number of
characters consumed after the marker. -/
def afterMarker (r : List Char) : Option (List Char × Nat) :=
  let skip := r.takeWhile (fun c => !(isAsciiAlpha c))
  match r.dropWhile (fun c => !(isAsciiAlpha c)) with
  | c :: cs => some (c :: identTail cs, skip.length + 1 + (identTail cs).length)
  | [] =>
    match lastUnderscore skip with
    | some p =>
      let tk := '_' :: identTail (skip.drop (p + 1))
      some (tk, p + tk.length)
    | none => none

/-- Python's ordered alternation over the marker literals: try each in
turn; if a marker matches but the rest of the pattern fails, fall
through to the next alternative at the same position. -/
def tryMarkers : List (List Char) → List Char → Option (List Char × Nat)
  | [], _ => none
  | m :: ms, s =>
    match stripCI m s with
    | some r =>
      match afterMarker r with
      | some (tk, k) => some (tk, m.length + k)
      | none => tryMarkers ms s
    | none => tryMarkers ms s

/-- One attempted match of pattern 3,
`(?:COMP_NODE|COLL_COMM_NODE|COMP|COMM)[^a-zA-Z]*([a-zA-Z_][a-zA-Z0-9_.]*)`
(IGNORECASE), at the head of the text. -/
def tryP3 (s : List Char) : Option (List Char × Nat) :=
  tryMarkers ["COMP_NODE".toList, "COLL_COMM_NODE".toList,
              "COMP".toList, "COMM".toList] s

/-- `re.findall` scanning: attempt a match at the current position; on
success emit the captured token and resume after the whole match, on
failure advance one character.  Fuel-indexed so that every definition
evaluates by kernel reduction; every successful match of the three
patterns consumes at least one character, so fuel `s.length` never runs
out before the text does. -/
def scanAux (tm : List Char → Option (List Char × Nat)) :
    Nat → List Char → List (List Char)
  | 0, _ => []
  | _ + 1, [] => []
  | fuel + 1, c :: cs =>
    match tm (c :: cs) with
    | some (tok, k) => tok :: scanAux tm fuel ((c :: cs).drop k)
    | none => scanAux tm fuel cs

/-- `re.findall(pattern1, content, re.IGNORECASE)`. -/
def pattern1Findall (s : List Char) : List (List Char) := scanAux tryP1 s.length s

/-- `re.findall(pattern2, content)`. -/
def pattern2Findall (s : List Char) : List (List Char) := scanAux tryP2 s.length s

/-- `re.findall(pattern3, content, re.IGNORECASE)`. -/
def pattern3Findall (s : List Char) : List (List Char) := scanAux tryP3 s.length s

/-- Python `sorted(set(l))` for a list of strings: the deduplicated
elements arranged in ascending lexicographic order.  `List.dedup` keeps
one copy of each element and `insertionSort` (stable, like Python's
sort) arranges them by `lexLe`. -/
def sortedUnique (l : List (List Char)) : List (List Char) :=
  List.insertionSort lexR l.dedup

/-- The flat pooled token list of `extract_operations`: `node_names`
after the three `extend` calls — all matches of pattern 1, then all of
pattern 2, then all of pattern 3. -/
def pooledTokens (content : List Char) : List (List Char) :=
  pattern1Findall content ++ pattern2Findall content ++ pattern3Findall content

/-- The pure token-processing part of `extract_operations`:
`unique_ops = sorted(set(node_names))` and
`op_counts = Counter(node_names)` (a `Counter` queried at a key returns
the number of occurrences in the tallied list, `0` if absent). -/
def extractOpsFromText (content : List Char) :
    List (List Char) × (List Char → Nat) :=
  (sortedUnique (pooledTokens content), fun t => (pooledTokens content).count t)

/-- Python `op.split('.')`: always at least one part; empty parts occur
around consecutive, leading or trailing dots. -/
def splitDot : List Char → List (List Char)
  | [] => [[]]
  | c :: cs =>
    let r := splitDot cs
    if c = '.' then [] :: r
    else
      match r with
      | h :: t => (c :: h) :: t
      | [] => [[c]]

/-- Python `'.'.join(parts)`. -/
def joinDot : List (List Char) → List Char
  | [] => []
  | [p] => p
  | p :: ps => p ++ '.' :: joinDot ps

/-- The grouping key computed in `main`:
`parts = op.split('.')`; join of the first three parts when there are
at least three, join of the first two when there are exactly two, and
`op` itself when there is a single part. -/
def groupKeyOf (op : List Char) : List Char :=
  let parts := splitDot op
  if 2 ≤ parts.length then
    if 3 ≤ parts.length then joinDot (parts.take 3) else joinDot (parts.take 2)
  else op

/-- The grouping-key rule in the words of the claim: the token split on
`'.'` and rejoined as the first two segments when the token has exactly
two segments, the first three segments when it has three or more, and
the whole token unchanged when it has no `'.'` separator. -/
def claimGroupKey (op : List Char) : List Char :=
  if op.contains '.' then
    let parts := splitDot op
    if parts.length = 2 then joinDot (parts.take 2) else joinDot (parts.take 3)
  else op

/-- One step of the grouping loop of `main`: insert `op` into the group
keyed `key`, appending the key at the end when it is new (Python dicts
preserve insertion order) and appending `op` at the end of the existing
group's list otherwise. -/
def addToGroups (gs : List (List Char × List (List Char))) (key : List Char)
    (op : List Char) : List (List Char × List (List Char)) :=
  match gs with
  | [] => [(key, [op])]
  | (k, l) :: t =>
    if k = key then (k, l ++ [op]) :: t else (k, l) :: addToGroups t key op

/-- The grouping loop of `main` over the unique operation list. -/
def groupByKey (ops : List (List Char)) : List (List Char × List (List Char)) :=
  ops.foldl (fun gs op => addToGroups gs (groupKeyOf op) op) []

/-- Modelled from the claim's words: the character class the claim says
a captured labeled-field token consists of — ASCII alphanumeric or
punctuation, excluding the quote characters (which the class already
lacks).  ASCII punctuation is the ranges `!`..`/`, `:`..`@`,
`[`..backquote and brace..`~`. -/
def isAlnumPunct (c : Char) : Bool :=
  let n := c.toNat
  (48 ≤ n && n ≤ 57) || (65 ≤ n && n ≤ 90) || (97 ≤ n && n ≤ 122) ||
  (33 ≤ n && n ≤ 47) || (58 ≤ n && n ≤ 64) || (91 ≤ n && n ≤ 96) ||
  (123 ≤ n && n ≤ 126)

/-- Modelled from the words of claim C5: the maximal runs of identifier
characters and dots in the text, kept when they contain at least one
literal dot.  Fuel-indexed like `scanAux`; fuel `s.length` is enough
since every step consumes at least one character. -/
def claimRunsAux : Nat → List Char → List (List Char)
  | 0, _ => []
  | _ + 1, [] => []
  | fuel + 1, c :: cs =>
    if isWChar c then
      (c :: cs.takeWhile isWChar) :: claimRunsAux fuel (cs.dropWhile isWChar)
    else claimRunsAux fuel cs

/-- The dotted-identifier scan as claim C5 words it: every run of
identifier characters containing at least one `.` separator. -/
def pattern2Claim (s : List Char) : List (List Char) :=
  (claimRunsAux s.length s).filter (fun r => r.contains '.')

/-- The filesystem and process services `verify_attention_only.py`
uses, as explicit parameters: `isFile` models `Path(p).is_file()`,
`isDir` models `Path(p).is_dir()`, `dirEtFiles` models
`list(Path(p).glob('*.et'))` — the directory entries matching `*.et`,
as full path strings in operating-system order — `globExpand` models
`glob.glob(p)` in expansion order, and `readBytes` models
`open(p, 'rb').read()`, yielding the bytes or the raised exception's
text. -/
structure FS where
  isFile : List Char → Bool
  isDir : List Char → Bool
  dirEtFiles : List Char → List (List Char)
  globExpand : List Char → List (List Char)
  readBytes : List Char → Except (List Char) (List Nat)

/-- Python `path.endswith('.et')`. -/
def etSuffix (p : List Char) : Bool := (".et".toList).isSuffixOf p

/-- `find_et_files`: a single-element list for an existing `.et` file,
the sorted `*.et` entries of an existing directory (Python sorts the
`Path` objects, which for entries of one directory is lexicographic
order of the path strings), else the glob expansion filtered to `.et`
suffixes in expansion order. -/
def find_et_files (fs : FS) (path : List Char) : List (List Char) :=
  if fs.isFile path && etSuffix path then [path]
  else if fs.isDir path then List.insertionSort lexR (fs.dirEtFiles path)
  else (fs.globExpand path).filter etSuffix

/-- A continuation byte `0x80..0xBF`. -/
def contByte (b : Nat) : Bool := 128 ≤ b && b ≤ 191

/-- CPython `bytes.decode('utf-8', errors='ignore')`: standard UTF-8
decoding where each invalid byte, and each truncated or out-of-range
sequence, is dropped (the lead byte together with the valid
continuation bytes seen so far — the maximal subpart — is skipped).
Fuel-indexed so that it evaluates by kernel reduction; every step
consumes at least one byte, so fuel `length` is exact. -/
def utf8DecodeAux : Nat → List Nat → List Char
  | 0, _ => []
  | _ + 1, [] => []
  | fuel + 1, b1 :: t1 =>
    if b1 < 128 then Char.ofNat b1 :: utf8DecodeAux fuel t1
    else if 194 ≤ b1 && b1 ≤ 223 then
      match t1 with
      | b2 :: t2 =>
        if contByte b2 then
          Char.ofNat ((b1 - 192) * 64 + (b2 - 128)) :: utf8DecodeAux fuel t2
        else utf8DecodeAux fuel t1
      | [] => utf8DecodeAux fuel t1
    else if 224 ≤ b1 && b1 ≤ 239 then
      match t1 with
      | b2 :: t2 =>
        if (if b1 = 224 then 160 ≤ b2 && b2 ≤ 191
            else if b1 = 237 then 128 ≤ b2 && b2 ≤ 159
            else contByte b2) then
          match t2 with
          | b3 :: t3 =>
            if contByte b3 then
              Char.ofNat ((b1 - 224) * 4096 + (b2 - 128) * 64 + (b3 - 128)) ::
                utf8DecodeAux fuel t3
            else utf8DecodeAux fuel t2
          | [] => utf8DecodeAux fuel t2
        else utf8DecodeAux fuel t1
      | [] => utf8DecodeAux fuel t1
    else if 240 ≤ b1 && b1 ≤ 244 then
      match t1 with
      | b2 :: t2 =>
        if (if b1 = 240 then 144 ≤ b2 && b2 ≤ 191
            else if b1 = 244 then 128 ≤ b2 && b2 ≤ 143
            else contByte b2) then
          match t2 with
          | b3 :: t3 =>
            if contByte b3 then
              match t3 with
              | b4 :: t4 =>
                if contByte b4 then
                  Char.ofNat ((b1 - 240) * 262144 + (b2 - 128) * 4096 +
                    (b3 - 128) * 64 + (b4 - 128)) :: utf8DecodeAux fuel t4
                else utf8DecodeAux fuel t3
              | [] => utf8DecodeAux fuel t3
            else utf8DecodeAux fuel t2
          | [] => utf8DecodeAux fuel t2
        else utf8DecodeAux fuel t1
      | [] => utf8DecodeAux fuel t1
    else utf8DecodeAux fuel t1

/-- The lossy decode applied to a whole byte string. -/
def utf8DecodeIgnore (bs : List Nat) : List Char := utf8DecodeAux bs.length bs

/-- The message `f"Error reading {file_path}: {e}"`. -/
def errorReadingLine (p e : List Char) : List Char :=
  "Error reading ".toList ++ p ++ ": ".toList ++ e

/-- `extract_strings_from_binary`: read the file's bytes and decode
them leniently; on any read failure print the error message naming the
path and the exception and return the empty string.  (The inner decode
fallback to `str(content)` is dead code: `decode('utf-8',
errors='ignore')` never raises.)  Returns the printed lines and the
resulting string. -/
def extract_strings_from_binary (fs : FS) (p : List Char) :
    List (List Char) × List Char :=
  match fs.readBytes p with
  | .error e => ([errorReadingLine p e], [])
  | .ok bs => ([], utf8DecodeIgnore bs)

/-- Decimal rendering of a count, as Python's string formatting. -/
def natChars (n : Nat) : List Char := Nat.toDigits 10 n

/-- `"=" * 80`. -/
def eqLine : List Char := List.replicate 80 '='

/-- `os.path.basename` (POSIX): the part after the last `/`. -/
def basename (p : List Char) : List Char :=
  (p.reverse.takeWhile (fun c => !(c = '/'))).reverse

def docText : List Char := ("\nScript to list operations in .et files.\n\nUsage:\n    python verify_attention_only.py <path_to_et_files>\n    \nExample:\n    python verify_attention_only.py generated_attn/\n    python verify_attention_only.py generated_attn/moe_attn_8exp_4ep.0.et\n").toList

def usageErrLine : List Char := ("\nError: Please provide path to .et file(s)").toList

def usageExampleLine : List Char :=
  ("Example: python verify_attention_only.py generated_attn/").toList

/-- `f"Error: No .et files found in: {input_path}"`. -/
def noFilesLine (p : List Char) : List Char :=
  ("Error: No .et files found in: ").toList ++ p

/-- `f"Analyzing: {first_file}\n"`. -/
def analyzingLine (f : List Char) : List Char :=
  ("Analyzing: ").toList ++ f ++ ("\n").toList

def foundHeaderLine (f : List Char) : List Char :=
  ("Operations found in ").toList ++ basename f

def totalLine (n : Nat) : List Char :=
  ("\nTotal unique operations: ").toList ++ natChars n ++ ("\n").toList

def groupedHeaderLine : List Char := ("Operations grouped by prefix:\n").toList

def keyLine (k : List Char) : List Char := k ++ (":").toList

def groupMemberLine (op : List Char) (cnt : Nat) : List Char :=
  ("  - ").toList ++ op ++ (" (appears ").toList ++ natChars cnt ++
    (" time(s))").toList

def nlEqLine : List Char := ("\n").toList ++ eqLine

def allHeaderLine : List Char := ("All unique operations (sorted):").toList

def allMemberLine (op : List Char) (cnt : Nat) : List Char :=
  ("  ").toList ++ op ++ (" (").toList ++ natChars cnt ++ (")").toList

/-- `grouped[k]` lookup in the grouping dict. -/
def lookupGroup (gs : List (List Char × List (List Char))) (k : List Char) :
    List (List Char) :=
  match gs with
  | [] => []
  | (k0, l) :: t => if k0 = k then l else lookupGroup t k

/-- The printed lines of the analysis of one file: the read/decode
step's error lines, the header block, the grouped section (keys in
sorted order, members sorted, a blank print after each group), and the
all-unique section. -/
def analyzeLines (fs : FS) (f : List Char) : List (List Char) :=
  let content := (extract_strings_from_binary fs f).2
  let u := (extractOpsFromText content).1
  let cnt := (extractOpsFromText content).2
  let gs := groupByKey u
  (extract_strings_from_binary fs f).1 ++
    [eqLine, foundHeaderLine f, eqLine, totalLine u.length,
     groupedHeaderLine] ++
    ((List.insertionSort lexR (gs.map Prod.fst)).map (fun k =>
      keyLine k ::
        ((List.insertionSort lexR (lookupGroup gs k)).map
          (fun op => groupMemberLine op (cnt op))) ++ [([] : List Char)])).flatten ++
    [nlEqLine, allHeaderLine, eqLine] ++
    u.map (fun op => allMemberLine op (cnt op))

/-- The observable outcome of one invocation: the `print` payloads in
order, the exit status, and the paths whose bytes were requested. -/
structure RunResult where
  stdout : List (List Char)
  exitCode : Nat
  readPaths : List (List Char)
deriving DecidableEq

/-- `main`: usage error without a path argument; resolution error when
no `.et` file is found; otherwise analyze the first resolved file and
print the report. -/
def runMain (fs : FS) (argv : List (List Char)) : RunResult :=
  match argv with
  | _ :: path :: _ =>
    match find_et_files fs path with
    | [] => ⟨[noFilesLine path], 1, []⟩
    | f :: _ => ⟨analyzingLine f :: analyzeLines fs f, 0, [f]⟩
  | _ => ⟨[docText, usageErrLine, usageExampleLine], 1, []⟩

theorem lexLe_trans {a b c : List Char} (hab : lexLe a b = true)
    (hbc : lexLe b c = true) : lexLe a c = true := by
  induction a generalizing b c with
  | nil => rfl
  | cons x xs ih =>
    cases b with
    | nil => simp [lexLe] at hab
    | cons y ys =>
      cases c with
      | nil => simp [lexLe] at hbc
      | cons z zs =>
        simp only [lexLe] at hab hbc ⊢
        by_cases hxy : x.toNat = y.toNat
        · by_cases hyz : y.toNat = z.toNat
          · simp only [hxy, hyz] at hab hbc
            simp only [hxy.trans hyz, if_pos rfl] at *
            exact ih hab hbc
          · simp only [if_pos hxy] at hab
            simp only [if_neg hyz, decide_eq_true_eq] at hbc
            have hxz : x.toNat < z.toNat := hxy ▸ hbc
            simp [Nat.ne_of_lt hxz, hxz]
        · simp only [if_neg hxy, decide_eq_true_eq] at hab
          by_cases hyz : y.toNat = z.toNat
          · have hxz : x.toNat < z.toNat := hyz ▸ hab
            simp [Nat.ne_of_lt hxz, hxz]
          · simp only [if_neg hyz, decide_eq_true_eq] at hbc
            have hxz : x.toNat < z.toNat := Nat.lt_trans hab hbc
            simp [Nat.ne_of_lt hxz, hxz]

theorem lexLe_total (a b : List Char) : lexLe a b = true ∨ lexLe b a = true := by
  induction a generalizing b with
  | nil => left; rfl
  | cons x xs ih =>
    cases b with
    | nil => right; rfl
    | cons y ys =>
      simp only [lexLe]
      by_cases hxy : x.toNat = y.toNat
      · simp only [hxy, if_pos rfl]
        exact ih ys
      · rcases Nat.lt_or_ge x.toNat y.toNat with h | h
        · left; simp [hxy, h]
        · have hlt : y.toNat < x.toNat := Nat.lt_of_le_of_ne h (fun e => hxy e.symm)
          have hne : ¬ y.toNat = x.toNat := fun e => hxy e.symm
          right; simp [hne, hlt]

instance : IsTrans (List Char) lexR := ⟨fun _ _ _ => lexLe_trans⟩

instance : IsTotal (List Char) lexR := ⟨lexLe_total⟩

/-- C1: for every input text, the unique operation set is the sorted
deduplication of the pooled token list of the three pattern scans — it
is sorted, has no duplicate, and holds exactly the tokens of the pool —
and every token of the unique set has an occurrence count that is at
least 1 and equals exactly the number of times that string was produced
across the three scans combined. -/
theorem extract_operations_unique_sorted_counted (content : List Char) :
    (extractOpsFromText content).1 = sortedUnique (pooledTokens content) ∧
    ((extractOpsFromText content).1).Nodup ∧
    List.Sorted lexR (extractOpsFromText content).1 ∧
    (∀ t, t ∈ (extractOpsFromText content).1 ↔ t ∈ pooledTokens content) ∧
    (∀ t, t ∈ (extractOpsFromText content).1 →
      (extractOpsFromText content).2 t = (pooledTokens content).count t ∧
      1 ≤ (extractOpsFromText content).2 t) := by
  refine ⟨rfl, ?_, ?_, ?_, ?_⟩
  · exact (List.perm_insertionSort lexR _).nodup_iff.mpr
      (List.nodup_dedup (pooledTokens content))
  · exact List.sorted_insertionSort lexR _
  · intro t
    unfold extractOpsFromText sortedUnique
    rw [List.mem_insertionSort, List.mem_dedup]
  · intro t ht
    refine ⟨rfl, ?_⟩
    have hmem : t ∈ pooledTokens content := by
      unfold extractOpsFromText sortedUnique at ht
      rw [List.mem_insertionSort, List.mem_dedup] at ht
      exact ht
    exact List.count_pos_iff.mpr hmem

/-- Witness for C1 at a concrete text: the token `a.b` is produced once
by pattern 2 at `a.b`, once more by pattern 2 at the second `a.b`, and
once by pattern 3 after `COMP_NODE`; its count is 3 and it is in the
unique set. -/
theorem extract_operations_unique_sorted_counted_witness :
    (extractOpsFromText ("a.b COMP_NODE a.b".toList)).2 ("a.b".toList) =
      (pooledTokens ("a.b COMP_NODE a.b".toList)).count ("a.b".toList) ∧
    1 ≤ (extractOpsFromText ("a.b COMP_NODE a.b".toList)).2 ("a.b".toList) :=
  (extract_operations_unique_sorted_counted ("a.b COMP_NODE a.b".toList)).2.2.2.2
    ("a.b".toList) (by decide)

theorem splitDot_length_pos (op : List Char) : 1 ≤ (splitDot op).length := by
  induction op with
  | nil => simp [splitDot]
  | cons c cs ih =>
    simp only [splitDot]
    by_cases hc : c = '.'
    · simp [hc]
    · simp only [if_neg hc]
      cases h : splitDot cs with
      | nil => simp
      | cons p ps => simp

theorem mem_dot_iff_parts (op : List Char) :
    '.' ∈ op ↔ 2 ≤ (splitDot op).length := by
  induction op with
  | nil => simp [splitDot]
  | cons c cs ih =>
    simp only [splitDot]
    by_cases hc : c = '.'
    · subst hc
      constructor
      · intro _
        have := splitDot_length_pos cs
        simp; omega
      · intro _; simp
    · rw [List.mem_cons]
      have hne : ¬ ('.' = c) := fun e => hc e.symm
      simp only [hne, false_or, if_neg hc]
      cases h : splitDot cs with
      | nil => have := splitDot_length_pos cs; rw [h] at this; simp at this
      | cons p ps =>
        rw [h] at ih
        simpa using ih

/-- The key computed by `main` agrees with the claim's two/three/whole
rule on every token. -/
theorem groupKeyOf_eq_claimGroupKey (op : List Char) :
    groupKeyOf op = claimGroupKey op := by
  unfold groupKeyOf claimGroupKey
  by_cases hdot : '.' ∈ op
  · have h2 : 2 ≤ (splitDot op).length := (mem_dot_iff_parts op).mp hdot
    by_cases h3 : 3 ≤ (splitDot op).length
    · have hne2 : ¬ (splitDot op).length = 2 := by omega
      simp [hdot, h2, h3, hne2]
    · have heq2 : (splitDot op).length = 2 := by omega
      simp [hdot, h2, h3, heq2]
  · have h2 : ¬ 2 ≤ (splitDot op).length := by
      intro h; exact hdot ((mem_dot_iff_parts op).mpr h)
    simp [hdot, h2]

theorem addToGroups_keys (gs : List (List Char × List (List Char)))
    (key op : List Char) :
    (addToGroups gs key op).map Prod.fst =
      if key ∈ gs.map Prod.fst then gs.map Prod.fst
      else gs.map Prod.fst ++ [key] := by
  induction gs with
  | nil => simp [addToGroups]
  | cons g t ih =>
    obtain ⟨k, l⟩ := g
    by_cases hk : k = key
    · subst hk
      simp [addToGroups]
    · simp only [addToGroups, if_neg hk, List.map_cons, ih]
      by_cases hmem : key ∈ t.map Prod.fst
      · have hcons : key ∈ (k, l).1 :: t.map Prod.fst :=
          List.mem_cons_of_mem _ hmem
        simp [hmem, hcons]
      · have hne : ¬ key ∈ (k, l).1 :: t.map Prod.fst := by
          intro h
          rcases List.mem_cons.mp h with h1 | h2
          · exact hk h1.symm
          · exact hmem h2
        simp [hne, hmem]

theorem addToGroups_keys_nodup {gs : List (List Char × List (List Char))}
    (h : (gs.map Prod.fst).Nodup) (key op : List Char) :
    ((addToGroups gs key op).map Prod.fst).Nodup := by
  rw [addToGroups_keys]
  by_cases hmem : key ∈ gs.map Prod.fst
  · simpa [hmem] using h
  · simp only [if_neg hmem]
    rw [List.nodup_append]
    exact ⟨h, List.nodup_singleton key, by simpa using hmem⟩

theorem addToGroups_member_key {gs : List (List Char × List (List Char))}
    {key op : List Char}
    (hinv : ∀ g ∈ gs, ∀ x ∈ g.2, groupKeyOf x = g.1)
    (hkey : groupKeyOf op = key) :
    ∀ g ∈ addToGroups gs key op, ∀ x ∈ g.2, groupKeyOf x = g.1 := by
  induction gs with
  | nil =>
    intro g hg x hx
    simp only [addToGroups, List.mem_singleton] at hg
    subst hg
    simp only [List.mem_singleton] at hx
    subst hx
    exact hkey
  | cons g0 t ih =>
    obtain ⟨k, l⟩ := g0
    by_cases hk : k = key
    · subst hk
      intro g hg x hx
      simp only [addToGroups, if_pos rfl] at hg
      rcases List.mem_cons.mp hg with rfl | hgt
      · rcases List.mem_append.mp hx with hxl | hxop
        · exact hinv (k, l) (List.mem_cons_self _ _) x hxl
        · simp only [List.mem_singleton] at hxop
          subst hxop
          exact hkey
      · exact hinv g (List.mem_cons_of_mem _ hgt) x hx
    · intro g hg x hx
      simp only [addToGroups, if_neg hk] at hg
      rcases List.mem_cons.mp hg with rfl | hgt
      · exact hinv (k, l) (List.mem_cons_self _ _) x hx
      · exact ih (fun g' hg' => hinv g' (List.mem_cons_of_mem _ hg')) g hgt x hx

theorem addToGroups_mem_self (gs : List (List Char × List (List Char)))
    (key op : List Char) :
    ∃ l, (key, l) ∈ addToGroups gs key op ∧ op ∈ l := by
  induction gs with
  | nil => exact ⟨[op], by simp [addToGroups], by simp⟩
  | cons g0 t ih =>
    obtain ⟨k, l0⟩ := g0
    by_cases hk : k = key
    · subst hk
      exact ⟨l0 ++ [op], by simp [addToGroups], by simp⟩
    · obtain ⟨l, hl, hop⟩ := ih
      refine ⟨l, ?_, hop⟩
      simp only [addToGroups, if_neg hk]
      exact List.mem_cons_of_mem _ hl

theorem addToGroups_preserve {gs : List (List Char × List (List Char))}
    {key op x : List Char} (h : ∃ g ∈ gs, x ∈ g.2) :
    ∃ g ∈ addToGroups gs key op, x ∈ g.2 := by
  induction gs with
  | nil => simp at h
  | cons g0 t ih =>
    obtain ⟨k, l0⟩ := g0
    obtain ⟨g, hg, hx⟩ := h
    by_cases hk : k = key
    · subst hk
      rcases List.mem_cons.mp hg with rfl | hgt
      · refine ⟨(k, l0 ++ [op]), by simp [addToGroups], ?_⟩
        exact List.mem_append_left _ hx
      · refine ⟨g, ?_, hx⟩
        simp only [addToGroups, if_pos rfl]
        exact List.mem_cons_of_mem _ hgt
    · rcases List.mem_cons.mp hg with rfl | hgt
      · refine ⟨(k, l0), ?_, hx⟩
        simp only [addToGroups, if_neg hk]
        exact List.mem_cons_self _ _
      · obtain ⟨g', hg', hx'⟩ := ih ⟨g, hgt, hx⟩
        refine ⟨g', ?_, hx'⟩
        simp only [addToGroups, if_neg hk]
        exact List.mem_cons_of_mem _ hg'

theorem groupFold_inv (ops : List (List Char))
    (gs : List (List Char × List (List Char)))
    (hnd : (gs.map Prod.fst).Nodup)
    (hkey : ∀ g ∈ gs, ∀ x ∈ g.2, groupKeyOf x = g.1) :
    ((ops.foldl (fun gs op => addToGroups gs (groupKeyOf op) op) gs).map
      Prod.fst).Nodup ∧
    ∀ g ∈ ops.foldl (fun gs op => addToGroups gs (groupKeyOf op) op) gs,
      ∀ x ∈ g.2, groupKeyOf x = g.1 := by
  induction ops generalizing gs with
  | nil => exact ⟨hnd, hkey⟩
  | cons op t ih =>
    simp only [List.foldl_cons]
    exact ih _ (addToGroups_keys_nodup hnd _ _)
      (addToGroups_member_key hkey rfl)

theorem groupFold_covers (ops : List (List Char))
    (gs : List (List Char × List (List Char))) (x : List Char)
    (h : (∃ g ∈ gs, x ∈ g.2) ∨ x ∈ ops) :
    ∃ g ∈ ops.foldl (fun gs op => addToGroups gs (groupKeyOf op) op) gs,
      x ∈ g.2 := by
  induction ops generalizing gs with
  | nil =>
    rcases h with h | h
    · exact h
    · simp at h
  | cons op t ih =>
    simp only [List.foldl_cons]
    rcases h with h | h
    · exact ih _ (Or.inl (addToGroups_preserve h))
    · rcases List.mem_cons.mp h with rfl | hxt
      · refine ih _ (Or.inl ?_)
        obtain ⟨l, hl, hx⟩ := addToGroups_mem_self gs (groupKeyOf x) x
        exact ⟨(groupKeyOf x, l), hl, hx⟩
      · exact ih _ (Or.inr hxt)

theorem eq_of_keys_nodup {gs : List (List Char × List (List Char))}
    (h : (gs.map Prod.fst).Nodup) {g₁ g₂ : List Char × List (List Char)}
    (h₁ : g₁ ∈ gs) (h₂ : g₂ ∈ gs) (hk : g₁.1 = g₂.1) : g₁ = g₂ := by
  induction gs with
  | nil => cases h₁
  | cons g0 t ih =>
    rw [List.map_cons] at h
    have hnd := List.nodup_cons.mp h
    rcases List.mem_cons.mp h₁ with rfl | h₁t
    · rcases List.mem_cons.mp h₂ with rfl | h₂t
      · rfl
      · exfalso
        exact hnd.1 (hk ▸ List.mem_map_of_mem Prod.fst h₂t)
    · rcases List.mem_cons.mp h₂ with rfl | h₂t
      · exfalso
        exact hnd.1 (hk ▸ List.mem_map_of_mem Prod.fst h₁t)
      · exact ih hnd.2 h₁t h₂t

/-- C2: the grouping key follows the claim's rule (first two segments
for exactly two, first three for three or more, the token itself with no
separator; in particular `a.b` to `a.b`, `a.b.c` to `a.b.c`, `a.b.c.d`
to `a.b.c`, `a` to `a`), and the grouping is total and deterministic:
every token of the grouped list lies in exactly one prefix group, whose
key is the token's derived key. -/
theorem grouping_total_deterministic :
    (∀ op, groupKeyOf op = claimGroupKey op) ∧
    (groupKeyOf ("a.b".toList) = "a.b".toList ∧
     groupKeyOf ("a.b.c".toList) = "a.b.c".toList ∧
     groupKeyOf ("a.b.c.d".toList) = "a.b.c".toList ∧
     groupKeyOf ("a".toList) = "a".toList) ∧
    (∀ ops op, op ∈ ops →
      ∃ g, (g ∈ groupByKey ops ∧ op ∈ g.2 ∧ g.1 = groupKeyOf op) ∧
        ∀ g', g' ∈ groupByKey ops → op ∈ g'.2 → g' = g) := by
  refine ⟨groupKeyOf_eq_claimGroupKey,
    ⟨by decide, by decide, by decide, by decide⟩, ?_⟩
  intro ops op hop
  obtain ⟨g, hg, hmem⟩ := groupFold_covers ops [] op (Or.inr hop)
  obtain ⟨hnd, hkeys⟩ := groupFold_inv ops [] (by simp) (by simp)
  refine ⟨g, ⟨hg, hmem, (hkeys g hg op hmem).symm⟩, ?_⟩
  intro g' hg' hmem'
  exact eq_of_keys_nodup hnd hg' hg
    ((hkeys g' hg' op hmem').symm.trans (hkeys g hg op hmem))

/-- Witness for C2: in the unique list `[a.b.c.d, x]`, the token
`a.b.c.d` lies in exactly one group, keyed `a.b.c`. -/
theorem grouping_total_deterministic_witness :
    ∃ g, (g ∈ groupByKey ["a.b.c.d".toList, "x".toList] ∧
        "a.b.c.d".toList ∈ g.2 ∧ g.1 = groupKeyOf ("a.b.c.d".toList)) ∧
      ∀ g', g' ∈ groupByKey ["a.b.c.d".toList, "x".toList] →
        "a.b.c.d".toList ∈ g'.2 → g' = g :=
  grouping_total_deterministic.2.2 ["a.b.c.d".toList, "x".toList]
    ("a.b.c.d".toList) (by decide)

theorem scanAux_step (tm : List Char → Option (List Char × Nat))
    (fuel : Nat) (c : Char) (cs : List Char) :
    scanAux tm (fuel + 1) (c :: cs) =
      match tm (c :: cs) with
      | some (tok, k) => tok :: scanAux tm fuel ((c :: cs).drop k)
      | none => scanAux tm fuel cs := rfl

/-- Any property of the tokens one attempted match can produce holds of
every token the full `findall` scan produces. -/
theorem scanAux_sound {tm : List Char → Option (List Char × Nat)}
    {P : List Char → Prop}
    (hp : ∀ u t k, tm u = some (t, k) → P t) :
    ∀ fuel s t, t ∈ scanAux tm fuel s → P t := by
  intro fuel
  induction fuel with
  | zero => intro s t ht; simp [scanAux] at ht
  | succ n ih =>
    intro s t ht
    cases s with
    | nil => simp [scanAux] at ht
    | cons c cs =>
      cases htm : tm (c :: cs) with
      | none =>
        rw [scanAux_step, htm] at ht
        exact ih cs t ht
      | some pr =>
        obtain ⟨tok, k⟩ := pr
        rw [scanAux_step, htm] at ht
        rcases List.mem_cons.mp ht with rfl | ht2
        · exact hp _ _ _ htm
        · exact ih _ _ ht2

/-- If no attempted match succeeds on any list drawn from the elements
of `s`, the scan produces nothing. -/
theorem scanAux_nil_of_none {tm : List Char → Option (List Char × Nat)}
    {Q : Char → Prop} (hq : ∀ u, (∀ c ∈ u, Q c) → tm u = none) :
    ∀ fuel s, (∀ c ∈ s, Q c) → scanAux tm fuel s = [] := by
  intro fuel
  induction fuel with
  | zero => intro s _; rfl
  | succ n ih =>
    intro s hs
    cases s with
    | nil => rfl
    | cons c cs =>
      rw [scanAux_step, hq (c :: cs) hs]
      exact ih cs (fun x hx => hs x (List.mem_cons_of_mem _ hx))

theorem stripCI_suffix {p s r : List Char} (h : stripCI p s = some r) :
    r <:+ s := by
  induction p generalizing s with
  | nil =>
    simp only [stripCI, Option.some.injEq] at h
    exact h ▸ List.suffix_refl s
  | cons a ps ih =>
    cases s with
    | nil => exact Option.noConfusion h
    | cons c cs =>
      simp only [stripCI] at h
      split at h
      · exact (ih h).trans (List.suffix_cons c cs)
      · exact Option.noConfusion h

theorem optQuote_suffix (l : List Char) : (optQuote l).2 <:+ l := by
  cases l with
  | nil => exact List.suffix_refl _
  | cons c cs =>
    simp only [optQuote]
    split
    · exact List.suffix_cons c cs
    · exact List.suffix_refl _

/-- Pattern 1 can only match where a `:` or `=` is present: the
mandatory `[:=]` character of the regex is an element of the text. -/
theorem tryP1_none_of_no_delim {s : List Char}
    (hnd : ∀ c ∈ s, isDelim c = false) : tryP1 s = none := by
  unfold tryP1
  cases hs : stripCI ("name".toList) s with
  | none => rfl
  | some r1 =>
    simp only
    cases hdw : ((optQuote r1).2).dropWhile isWs with
    | nil => rfl
    | cons d r4 =>
      have hd : d ∈ s := by
        have h1 : d ∈ (optQuote r1).2.dropWhile isWs := hdw ▸ List.mem_cons_self d r4
        have h2 : (optQuote r1).2.dropWhile isWs <:+ s :=
          ((List.dropWhile_suffix isWs).trans (optQuote_suffix r1)).trans
            (stripCI_suffix hs)
        exact h2.subset h1
      have hdel : isDelim d = false := hnd d hd
      simp [hdel]

theorem isWs_not_quote {c : Char} (h : isWs c = true) : isQuote c = false := by
  by_contra hq
  rw [Bool.not_eq_false] at hq
  simp only [isQuote, Bool.or_eq_true, decide_eq_true_eq] at hq
  rcases hq with rfl | rfl
  · exact absurd h (by decide)
  · exact absurd h (by decide)

theorem tryP1_shape {s t : List Char} {k : Nat} (h : tryP1 s = some (t, k)) :
    t ≠ [] ∧ ∀ c ∈ t, isQuote c = false := by
  simp only [tryP1] at h
  split at h
  · exact Option.noConfusion h
  · split at h
    · exact Option.noConfusion h
    · split at h
      · split at h
        · split at h
          · next wc hlast =>
            simp only [Option.some.injEq, Prod.mk.injEq] at h
            obtain ⟨rfl, -⟩ := h
            refine ⟨by simp, ?_⟩
            intro c hc
            simp only [List.mem_singleton] at hc
            subst hc
            exact isWs_not_quote
              (List.mem_takeWhile_imp (List.mem_of_mem_getLast? hlast))
          · exact Option.noConfusion h
        · next hne =>
          simp only [Option.some.injEq, Prod.mk.injEq] at h
          obtain ⟨rfl, -⟩ := h
          constructor
          · intro hnil
            exact hne (by rw [hnil]; rfl)
          · intro c hc
            have := List.mem_takeWhile_imp hc
            simpa using this
      · exact Option.noConfusion h

/-- C3 counterexample: on `name: a b` the labeled-field scan captures
`a b`, which contains a space — not a run of alphanumeric/punctuation
characters as the claim states; and on `name foo` (label followed by a
value with no colon/equals) the scan captures nothing, though the claim
calls the quote/colon/equals delimiter optional. -/
theorem pattern1_claim_counterexample :
    pattern1Findall ("name: a b".toList) = ["a b".toList] ∧
    ¬ (∀ c ∈ "a b".toList, isAlnumPunct c = true) ∧
    pattern1Findall ("name foo".toList) = [] := by
  refine ⟨by decide, by decide, by decide⟩

/-- C3 amended: the labeled-field scan matches a `name` label
case-insensitively, then an optional quote, then a mandatory colon or
equals sign with optional surrounding whitespace, then an optional
quote, and captures as the token a nonempty run of arbitrary characters
other than the two quote characters (the run may contain whitespace).
Stated here as: every captured token is nonempty and quote-free, and a
text with no colon and no equals sign yields no token at all. -/
theorem pattern1_amended (s : List Char) :
    (∀ t, t ∈ pattern1Findall s → t ≠ [] ∧ ∀ c ∈ t, isQuote c = false) ∧
    ((∀ c ∈ s, isDelim c = false) → pattern1Findall s = []) := by
  constructor
  · intro t ht
    exact scanAux_sound (fun _ _ _ hu => tryP1_shape hu) s.length s t ht
  · intro hnd
    exact scanAux_nil_of_none (fun u hu => tryP1_none_of_no_delim hu)
      s.length s hnd

/-- Witness for the amended C3: the token captured in `name: a b` is
nonempty and quote-free, and the delimiter-free text `name foo` yields
no token. -/
theorem pattern1_amended_witness :
    ("a b".toList ≠ [] ∧ ∀ c ∈ "a b".toList, isQuote c = false) ∧
    pattern1Findall ("name foo".toList) = [] :=
  ⟨(pattern1_amended ("name: a b".toList)).1 ("a b".toList) (by decide),
   (pattern1_amended ("name foo".toList)).2 (by decide)⟩

theorem isAsciiAlpha_isWChar {c : Char} (h : isAsciiAlpha c = true) :
    isWChar c = true := by
  simp [isWChar, isIdentChar, h]

theorem isIdentStart_isWChar {c : Char} (h : isIdentStart c = true) :
    isWChar c = true := by
  simp only [isIdentStart, Bool.or_eq_true] at h
  rcases h with h | h
  · exact isAsciiAlpha_isWChar h
  · simp [isWChar, isIdentChar, h]

theorem tryP2_shape {s t : List Char} {k : Nat} (h : tryP2 s = some (t, k)) :
    ∃ c ts, t = c :: ts ∧ isIdentStart c = true ∧
      (∀ x ∈ t, isWChar x = true) ∧ hasInnerDot t = true := by
  cases s with
  | nil => exact Option.noConfusion h
  | cons c cs =>
    simp only [tryP2] at h
    split at h
    · split at h
      · next hstart hdot =>
        simp only [Option.some.injEq, Prod.mk.injEq] at h
        obtain ⟨rfl, -⟩ := h
        refine ⟨c, cs.takeWhile isWChar, rfl, hstart, ?_, hdot⟩
        intro x hx
        rcases List.mem_cons.mp hx with rfl | hx2
        · exact isIdentStart_isWChar hstart
        · exact List.mem_takeWhile_imp hx2
      · exact Option.noConfusion h
    · exact Option.noConfusion h

/-- C5 counterexample: `0.mha` is a single run of identifier characters
containing a dot, so the claim's scan yields it, but the code's pattern
2 requires the match to start with a letter or underscore and yields
nothing; likewise `a.` is such a run, but pattern 2 yields nothing
because its dot must be followed by another run character. -/
theorem pattern2_claim_counterexample :
    pattern2Claim ("0.mha".toList) = ["0.mha".toList] ∧
    pattern2Findall ("0.mha".toList) = [] ∧
    pattern2Claim ("a.".toList) = ["a.".toList] ∧
    pattern2Findall ("a.".toList) = [] := by
  refine ⟨by decide, by decide, by decide, by decide⟩

/-- C5 amended: the dotted-identifier scan matches runs of identifier
characters and dots that begin with a letter or underscore at the match
position and contain a `.` at an inner position followed by at least one
more run character: every produced token has that shape. -/
theorem pattern2_amended (s : List Char) :
    ∀ t, t ∈ pattern2Findall s →
      ∃ c ts, t = c :: ts ∧ isIdentStart c = true ∧
        (∀ x ∈ t, isWChar x = true) ∧ hasInnerDot t = true := by
  intro t ht
  exact @scanAux_sound tryP2
    (fun t => ∃ c ts, t = c :: ts ∧ isIdentStart c = true ∧
      (∀ x ∈ t, isWChar x = true) ∧ hasInnerDot t = true)
    (fun u tk k hu => tryP2_shape hu) s.length s t ht

/-- Witness for the amended C5 at `transformer.0.mha.qkv`. -/
theorem pattern2_amended_witness :
    ∃ c ts, "transformer.0.mha.qkv".toList = c :: ts ∧
      isIdentStart c = true ∧
      (∀ x ∈ "transformer.0.mha.qkv".toList, isWChar x = true) ∧
      hasInnerDot ("transformer.0.mha.qkv".toList) = true :=
  pattern2_amended ("transformer.0.mha.qkv".toList)
    ("transformer.0.mha.qkv".toList) (by decide)

/-- C6: `find_et_files` returns the input alone when it names an
existing regular file ending in `.et`; otherwise, for an existing
directory, the directory's `*.et` entries arranged in ascending
lexicographic order; otherwise the glob expansion filtered to `.et`
suffixes, in expansion order. -/
theorem find_et_files_branches (fs : FS) (p : List Char) :
    (fs.isFile p = true ∧ etSuffix p = true → find_et_files fs p = [p]) ∧
    (¬(fs.isFile p = true ∧ etSuffix p = true) → fs.isDir p = true →
      List.Perm (find_et_files fs p) (fs.dirEtFiles p) ∧
      List.Sorted lexR (find_et_files fs p)) ∧
    (¬(fs.isFile p = true ∧ etSuffix p = true) → fs.isDir p = false →
      find_et_files fs p = (fs.globExpand p).filter etSuffix) := by
  have hand : ¬(fs.isFile p = true ∧ etSuffix p = true) →
      (fs.isFile p && etSuffix p) = false := by
    intro hno
    cases hf : fs.isFile p with
    | false => simp
    | true =>
      cases he : etSuffix p with
      | false => simp
      | true => exact absurd ⟨hf, he⟩ hno
  refine ⟨?_, ?_, ?_⟩
  · rintro ⟨hf, he⟩
    simp [find_et_files, hf, he]
  · intro hno hdir
    have heq : find_et_files fs p =
        List.insertionSort lexR (fs.dirEtFiles p) := by
      simp [find_et_files, hand hno, hdir]
    rw [heq]
    exact ⟨List.perm_insertionSort _ _, List.sorted_insertionSort _ _⟩
  · intro hno hdir
    simp [find_et_files, hand hno, hdir]

/-- Witness for C6 at a concrete filesystem: a directory whose `*.et`
entries arrive unsorted is returned as a sorted permutation, and a glob
fallback filters to `.et`. -/
theorem find_et_files_branches_witness :
    (List.Perm
      (find_et_files
        ⟨fun _ => false, fun _ => true,
         fun _ => ["d/b.et".toList, "d/a.et".toList], fun _ => [],
         fun _ => .error []⟩ ("d".toList))
      ["d/b.et".toList, "d/a.et".toList] ∧
     List.Sorted lexR
      (find_et_files
        ⟨fun _ => false, fun _ => true,
         fun _ => ["d/b.et".toList, "d/a.et".toList], fun _ => [],
         fun _ => .error []⟩ ("d".toList))) ∧
    find_et_files
      ⟨fun _ => false, fun _ => false, fun _ => [],
       fun _ => ["x.et".toList, "y.txt".toList], fun _ => .error []⟩
      ("*".toList) =
      (["x.et".toList, "y.txt".toList].filter etSuffix) :=
  ⟨(find_et_files_branches _ _).2.1 (by simp) rfl,
   (find_et_files_branches _ _).2.2 (by simp) rfl⟩

/-- C7: the loader-and-decoder never fails: for every path and every
read outcome it returns a pair of printed lines and a string.  On a
read failure it prints exactly one line holding the path and the
underlying error text and returns the empty string; on success it
prints nothing and returns the lossy decoding of the bytes, a total
function of arbitrary byte content. -/
theorem extract_strings_total (fs : FS) (p : List Char) :
    (∀ e, fs.readBytes p = .error e →
      extract_strings_from_binary fs p = ([errorReadingLine p e], []) ∧
      errorReadingLine p e =
        "Error reading ".toList ++ p ++ ": ".toList ++ e) ∧
    (∀ bs, fs.readBytes p = .ok bs →
      extract_strings_from_binary fs p = ([], utf8DecodeIgnore bs)) := by
  constructor
  · intro e he
    exact ⟨by simp [extract_strings_from_binary, he], rfl⟩
  · intro bs hbs
    simp [extract_strings_from_binary, hbs]

/-- Witness for C7: a failing read reports and yields the empty string;
invalid UTF-8 bytes (`0xFF` before `a`) still decode to a string. -/
theorem extract_strings_total_witness :
    (extract_strings_from_binary
      ⟨fun _ => false, fun _ => false, fun _ => [], fun _ => [],
       fun _ => .error ("boom".toList)⟩ ("x.et".toList) =
      ([errorReadingLine ("x.et".toList) ("boom".toList)], []) ∧
     errorReadingLine ("x.et".toList) ("boom".toList) =
      "Error reading ".toList ++ "x.et".toList ++ ": ".toList ++
        "boom".toList) ∧
    extract_strings_from_binary
      ⟨fun _ => false, fun _ => false, fun _ => [], fun _ => [],
       fun _ => .ok [255, 97]⟩ ("y.et".toList) =
      ([], utf8DecodeIgnore [255, 97]) :=
  ⟨(extract_strings_total _ ("x.et".toList)).1 ("boom".toList) rfl,
   (extract_strings_total _ ("y.et".toList)).2 [255, 97] rfl⟩

/-- C8: when the path resolves to no `.et` file, the run prints exactly
one error line naming the searched path, exits with status 1, and reads
no file (no analysis, no report). -/
theorem no_files_error_exit (fs : FS) (prog path : List Char)
    (rest : List (List Char)) (h : find_et_files fs path = []) :
    runMain fs (prog :: path :: rest) =
      ⟨[noFilesLine path], 1, []⟩ := by
  simp [runMain, h]

/-- Witness for C8: an empty filesystem. -/
theorem no_files_error_exit_witness :
    runMain
      ⟨fun _ => false, fun _ => false, fun _ => [], fun _ => [],
       fun _ => .error []⟩ ["prog".toList, "none".toList] =
      ⟨[noFilesLine ("none".toList)], 1, []⟩ :=
  no_files_error_exit _ ("prog".toList) ("none".toList) [] (by decide)

/-- C9: whenever resolution yields at least one file, the run analyzes
and reports on the first file only: the whole outcome is a function of
that first file, and it is the only path read; the remaining resolved
files never appear. -/
theorem only_first_file_analyzed (fs : FS) (prog path f : List Char)
    (rest more : List (List Char))
    (h : find_et_files fs path = f :: rest) :
    runMain fs (prog :: path :: more) =
      ⟨analyzingLine f :: analyzeLines fs f, 0, [f]⟩ := by
  simp [runMain, h]

/-- Witness for C9: with two resolved files only the first is read. -/
theorem only_first_file_analyzed_witness :
    runMain
      ⟨fun _ => false, fun _ => true,
       fun _ => ["d/a.et".toList, "d/b.et".toList], fun _ => [],
       fun _ => .ok []⟩ ["prog".toList, "d".toList] =
      ⟨analyzingLine ("d/a.et".toList) ::
        analyzeLines
          ⟨fun _ => false, fun _ => true,
           fun _ => ["d/a.et".toList, "d/b.et".toList], fun _ => [],
           fun _ => .ok []⟩ ("d/a.et".toList), 0, ["d/a.et".toList]⟩ :=
  only_first_file_analyzed _ ("prog".toList) ("d".toList)
    ("d/a.et".toList) ["d/b.et".toList] [] (by decide)

/-- C10: when the single analyzed file cannot be read, the run still
succeeds: the error line is printed, extraction of the empty string
yields an empty unique set and an all-zero count table, the full report
layout (header block, `Total unique operations: 0`, grouped section,
all-unique section) is still printed, and the exit status is 0. -/
theorem read_error_still_reports (fs : FS) (prog path f e : List Char)
    (rest more : List (List Char))
    (h : find_et_files fs path = f :: rest)
    (he : fs.readBytes f = .error e) :
    (extractOpsFromText []).1 = [] ∧
    (∀ t, (extractOpsFromText []).2 t = 0) ∧
    runMain fs (prog :: path :: more) =
      ⟨[analyzingLine f, errorReadingLine f e, eqLine, foundHeaderLine f,
        eqLine, totalLine 0, groupedHeaderLine, nlEqLine, allHeaderLine,
        eqLine], 0, [f]⟩ := by
  refine ⟨rfl, fun t => rfl, ?_⟩
  simp only [runMain, h]
  have hex : extract_strings_from_binary fs f =
      ([errorReadingLine f e], []) := by
    simp [extract_strings_from_binary, he]
  simp [analyzeLines, hex]
  exact ⟨rfl, rfl⟩

/-- Witness for C10 at a concrete filesystem whose single file fails to
read. -/
theorem read_error_still_reports_witness :
    runMain
      ⟨fun p => p == "x.et".toList, fun _ => false, fun _ => [],
       fun _ => [], fun _ => .error ("boom".toList)⟩
      ["prog".toList, "x.et".toList] =
      ⟨[analyzingLine ("x.et".toList),
        errorReadingLine ("x.et".toList) ("boom".toList), eqLine,
        foundHeaderLine ("x.et".toList), eqLine, totalLine 0,
        groupedHeaderLine, nlEqLine, allHeaderLine, eqLine], 0,
        ["x.et".toList]⟩ :=
  (read_error_still_reports _ ("prog".toList) ("x.et".toList)
    ("x.et".toList) ("boom".toList) [] [] (by decide) rfl).2.2
